import Mathlib

/-!
Verification of the hkss-saveinfo save-name parser and formatter.

The Rust source (src/parser.rs, src/save_info_struct.rs) is embedded
shallowly: Rust `&str` slices become `List Char`, and each nom combinator
used by the source is modelled by an executable Lean function with the
same consumption behaviour.  A parser takes the input and returns
`none` on failure or `some (rest, value)` where `rest` is the unconsumed
remainder, exactly like nom's `IResult`.
-/

namespace HKSS

/-- Strings are modelled as lists of characters. -/
abbrev Str := List Char

/-- nom's `tag(t)`: matches the literal `t` at the start of the input and
returns the remainder, failing otherwise. -/
def pLit : Str → Str → Option Str
  | [], s => some s
  | _ :: _, [] => none
  | a :: t, b :: s => if a = b then pLit t s else none

/-- nom's `take_until(pat)`: returns the input up to (not including) the
first occurrence of `pat`, failing if `pat` never occurs.  The result is
`some (rest, taken)` where `rest` still starts with `pat`. -/
def takeUntil (pat : Str) : Str → Option (Str × Str)
  | [] =>
    match pLit pat [] with
    | some _ => some (([] : Str), ([] : Str))
    | none => none
  | c :: s =>
    match pLit pat (c :: s) with
    | some _ => some (c :: s, ([] : Str))
    | none =>
      match takeUntil pat s with
      | some (r, g) => some (r, c :: g)
      | none => none

/-- Continuation of nom's `recognize(separated_list0(tag("."), digit1))`
after at least one digit has been consumed: consumes the remaining digits
of the current group and then any further `"." ++ digits` groups, with
the single-separator backtracking of `separated_list0` (a `.` not
followed by a digit is left unconsumed).  Returns `(rest, consumed)`. -/
def sepA : Str → Str × Str
  | [] => (([] : Str), ([] : Str))
  | [c] => if c.isDigit then (([] : Str), [c]) else ([c], ([] : Str))
  | c :: d :: s =>
    if c.isDigit then
      let p := sepA (d :: s)
      (p.1, c :: p.2)
    else
      if c = '.' ∧ d.isDigit then
        let p := sepA s
        (p.1, c :: d :: p.2)
      else (c :: d :: s, ([] : Str))

/-- nom's `recognize(separated_list0(tag("."), digit1))`: consumes a
(possibly empty) dot-separated sequence of non-empty digit groups and
returns `(rest, consumed)`.  Never fails; zero groups yield `[]`. -/
def sepDigits : Str → Str × Str
  | [] => (([] : Str), ([] : Str))
  | c :: s =>
    if c.isDigit then
      let p := sepA s
      (p.1, c :: p.2)
    else (c :: s, ([] : Str))

/-- Checker for a valid continuation of a digit-group sequence after at
least one digit: digits, or a `.` that must be followed by a digit. -/
def groupSeqA : Str → Bool
  | [] => true
  | [c] => c.isDigit
  | c :: d :: s =>
    if c.isDigit then groupSeqA (d :: s)
    else c = '.' && d.isDigit && groupSeqA s

/-- `isDigitGroupSeq v` holds exactly when `v` is a dot-separated
sequence of one or more non-empty digit groups (`D+ ("." D+)*`). -/
def isDigitGroupSeq : Str → Bool
  | [] => false
  | c :: s => c.isDigit && groupSeqA s

/-- nom's `opt(p)`: turns failure into a confirmed absence without
consuming input. -/
def optP {α : Type} (p : Str → Option (Str × α)) (s : Str) : Str × Option α :=
  match p s with
  | some (r, v) => (r, some v)
  | none => (s, none)

/-- `fn parse_tag_internal` from src/parser.rs: `__` , `take_until("__")`,
`__`; yields the text between the markers. -/
def parse_tag_internal (s : Str) : Option (Str × Str) :=
  match pLit "__".toList s with
  | none => none
  | some s1 =>
    match takeUntil "__".toList s1 with
    | none => none
    | some (s2, internal_tag) =>
      match pLit "__".toList s2 with
      | none => none
      | some s3 => some (s3, internal_tag)

/-- `fn parse_suffix_bak` from src/parser.rs: `.bak`, `digit0`, `eof`;
yields the (possibly empty) digit string. -/
def parse_suffix_bak (s : Str) : Option (Str × Str) :=
  match pLit ".bak".toList s with
  | none => none
  | some s1 =>
    let bak_id := s1.takeWhile Char.isDigit
    match s1.dropWhile Char.isDigit with
    | [] => some (([] : Str), bak_id)
    | _ :: _ => none

/-- `fn parse_suffix` from src/parser.rs: `.dat`, `opt(parse_suffix_bak)`,
`eof`; yields the optional backup id. -/
def parse_suffix (s : Str) : Option (Str × Option Str) :=
  match pLit ".dat".toList s with
  | none => none
  | some s1 =>
    match parse_suffix_bak s1 with
    | some (s2, bak_id) =>
      match s2 with
      | [] => some (([] : Str), some bak_id)
      | _ :: _ => none
    | none =>
      match s1 with
      | [] => some (([] : Str), none)
      | _ :: _ => none

/-- `fn parse_version` from src/parser.rs: `_` then
`recognize(separated_list0(tag("."), digit1))`. -/
def parse_version (s : Str) : Option (Str × Str) :=
  match pLit "_".toList s with
  | none => none
  | some s1 =>
    let p := sepDigits s1
    some (p.1, p.2)

/-- The look-ahead used inside `parse_user_tag`:
`peek(preceded(opt(parse_version), parse_suffix))` succeeds exactly when
an optional version segment followed by the mandatory suffix segment
matches the whole remaining input. -/
def verSuffixLA (s : Str) : Bool :=
  let s1 :=
    match parse_version s with
    | some (r, _) => r
    | none => s
  (parse_suffix s1).isSome

/-- nom's `many_till(take(1), peek(preceded(opt(parse_version), parse_suffix)))`:
the terminator look-ahead is tried first at every position; one character
is consumed at a time until it succeeds.  Returns `(rest, consumed)`. -/
def userTagGo : Str → Option (Str × Str)
  | [] => if verSuffixLA [] then some (([] : Str), ([] : Str)) else none
  | c :: s =>
    if verSuffixLA (c :: s) then some (c :: s, ([] : Str))
    else
      match userTagGo s with
      | some (r, g) => some (r, c :: g)
      | none => none

/-- `fn parse_user_tag` from src/parser.rs: literal `user`, then the
look-ahead-bounded greedy tag match. -/
def parse_user_tag (s : Str) : Option (Str × Str) :=
  match pLit "user".toList s with
  | none => none
  | some s1 => userTagGo s1

/-- `struct SaveNameInfo` from src/save_info_struct.rs. -/
structure SaveNameInfo where
  tag : Str
  version : Option Str
  backup_id : Option Str
  internal_tag : Option Str
  deriving DecidableEq, Repr

/-- `SaveNameInfo::new` from src/save_info_struct.rs: stores the given
field values verbatim. -/
def SaveNameInfo.new (tag : Str) (version backup internal_tag : Option Str) : SaveNameInfo :=
  { tag := tag, version := version, backup_id := backup, internal_tag := internal_tag }

/-- `impl fmt::Display for SaveNameInfo` from src/save_info_struct.rs:
`write!(f, "{internal_tag_str}user{}{ver_str}{ext_str}", &self.tag)`. -/
def SaveNameInfo.format (r : SaveNameInfo) : Str :=
  let ver_str : Str :=
    match r.version with
    | none => []
    | some x => '_' :: x
  let ext_str : Str :=
    match r.backup_id with
    | none => ".dat".toList
    | some x => ".dat.bak".toList ++ x
  let internal_tag_str : Str :=
    match r.internal_tag with
    | none => []
    | some x => "__".toList ++ x ++ "__".toList
  internal_tag_str ++ "user".toList ++ r.tag ++ ver_str ++ ext_str

/-- `fn parse` from src/parser.rs: `opt(parse_tag_internal)`,
`parse_user_tag`, `opt(parse_version)`, `parse_suffix`, assembled into a
`SaveNameInfo`. -/
def parse (s : Str) : Option (Str × SaveNameInfo) :=
  match optP parse_tag_internal s with
  | (s1, internal_tag) =>
    match parse_user_tag s1 with
    | none => none
    | some (s2, user_tag) =>
      match optP parse_version s2 with
      | (s3, ver) =>
        match parse_suffix s3 with
        | none => none
        | some (s4, backup) =>
          some (s4, { tag := user_tag, version := ver, backup_id := backup,
                      internal_tag := internal_tag })

/-- The version segment of the formatted name (`ver_str` in the Rust
Display impl). -/
def ver_str (r : SaveNameInfo) : Str :=
  match r.version with
  | none => []
  | some x => '_' :: x

/-- The suffix/extension segment of the formatted name (`ext_str` in the
Rust Display impl). -/
def ext_str (r : SaveNameInfo) : Str :=
  match r.backup_id with
  | none => ".dat".toList
  | some x => ".dat.bak".toList ++ x

/-- The internal-tag segment of the formatted name (`internal_tag_str`
in the Rust Display impl). -/
def internal_str (r : SaveNameInfo) : Str :=
  match r.internal_tag with
  | none => []
  | some x => "__".toList ++ x ++ "__".toList

/-- `noEarlyLA g rest` holds when the version/suffix look-ahead fails at
every position strictly inside `g` (i.e. on `b ++ rest` for every
non-empty suffix `b` of `g`). -/
def noEarlyLA : Str → Str → Bool
  | [], _ => true
  | c :: t, rest => !(verSuffixLA (c :: (t ++ rest))) && noEarlyLA t rest

/-- `noLAsubstring t` holds when no contiguous substring of `t`
satisfies the version/suffix look-ahead. -/
def noLAsubstring (t : Str) : Bool :=
  (List.range (t.length + 1)).all fun i =>
    (List.range (t.length + 1)).all fun n =>
      !(verSuffixLA ((t.drop i).take n))

/-! ### Lemmas about the literal matcher -/

theorem pLit_sound : ∀ t s r : Str, pLit t s = some r → s = t ++ r := by
  intro t
  induction t with
  | nil =>
    intro s r h
    simp only [pLit, Option.some.injEq] at h
    simp [h]
  | cons a t ih =>
    intro s r h
    cases s with
    | nil => simp [pLit] at h
    | cons b s' =>
      simp only [pLit] at h
      split at h
      · next hab => simp [hab, ih s' r h]
      · exact absurd h (by simp)

theorem pLit_complete : ∀ t r : Str, pLit t (t ++ r) = some r := by
  intro t
  induction t with
  | nil => intro r; rfl
  | cons a t ih => intro r; simp [pLit, ih r]

theorem pLit_none_append : ∀ t x u : Str, t.length ≤ x.length →
    pLit t x = none → pLit t (x ++ u) = none := by
  intro t
  induction t with
  | nil => intro x u _ h; simp [pLit] at h
  | cons a t ih =>
    intro x u hlen h
    cases x with
    | nil => simp at hlen
    | cons b x' =>
      simp only [pLit] at h ⊢
      split at h
      · next hab =>
        rw [if_pos hab]
        exact ih x' u (by simpa using hlen) h
      · next hab => rw [if_neg hab]

/-! ### Lemmas about `takeUntil` -/

theorem takeUntil_sound : ∀ pat s r g, takeUntil pat s = some (r, g) →
    s = g ++ r ∧ (∃ r2, pLit pat r = some r2) ∧
    (∀ a b, g = a ++ b → b ≠ [] → pLit pat (b ++ r) = none) := by
  intro pat s
  induction s with
  | nil =>
    intro r g h
    simp only [takeUntil] at h
    cases hp : pLit pat [] with
    | none => rw [hp] at h; exact absurd h (by simp)
    | some w =>
      rw [hp] at h
      simp only [Option.some.injEq, Prod.mk.injEq] at h
      obtain ⟨hr, hg⟩ := h
      subst hr; subst hg
      refine ⟨rfl, ⟨w, hp⟩, ?_⟩
      intro a b hab hb
      exact absurd (List.append_eq_nil.mp hab.symm).2 hb
  | cons c s' ih =>
    intro r g h
    simp only [takeUntil] at h
    cases hp : pLit pat (c :: s') with
    | some w =>
      rw [hp] at h
      simp only [Option.some.injEq, Prod.mk.injEq] at h
      obtain ⟨hr, hg⟩ := h
      subst hr; subst hg
      refine ⟨rfl, ⟨w, hp⟩, ?_⟩
      intro a b hab hb
      exact absurd (List.append_eq_nil.mp hab.symm).2 hb
    | none =>
      rw [hp] at h
      cases ht : takeUntil pat s' with
      | none => rw [ht] at h; exact absurd h (by simp)
      | some p =>
        obtain ⟨r', g'⟩ := p
        rw [ht] at h
        simp only [Option.some.injEq, Prod.mk.injEq] at h
        obtain ⟨hr, hg⟩ := h
        subst hr; subst hg
        obtain ⟨hs, hex, hmin⟩ := ih r' g' ht
        refine ⟨by simp [hs], hex, ?_⟩
        intro a b hab hb
        cases a with
        | nil =>
          simp only [List.nil_append] at hab
          subst hab
          simpa [hs] using hp
        | cons a0 a' =>
          simp only [List.cons_append, List.cons.injEq] at hab
          exact hmin a' b hab.2 hb

theorem takeUntil_extend : ∀ pat t u : Str,
    takeUntil pat (t ++ pat) = some (pat, t) →
    takeUntil pat (t ++ pat ++ u) = some (pat ++ u, t) := by
  intro pat t
  induction t with
  | nil =>
    intro u _
    simp only [List.nil_append]
    have hc : pLit pat (pat ++ u) = some u := pLit_complete pat u
    cases hpu : pat ++ u with
    | nil =>
      obtain ⟨hp, hu⟩ := List.append_eq_nil.mp hpu
      subst hp; subst hu
      rfl
    | cons c s' =>
      rw [hpu] at hc
      simp [takeUntil, hc]
  | cons c t' ih =>
    intro u h
    simp only [List.cons_append, takeUntil, List.append_eq] at h
    cases hp : pLit pat (c :: (t' ++ pat)) with
    | some w =>
      rw [hp] at h
      simp only [Option.some.injEq, Prod.mk.injEq] at h
      exact absurd h.2 (by simp)
    | none =>
      rw [hp] at h
      have h' : takeUntil pat (t' ++ pat) = some (pat, t') := by
        cases ht : takeUntil pat (t' ++ pat) with
        | none => rw [ht] at h; exact absurd h (by simp)
        | some p =>
          obtain ⟨r', g'⟩ := p
          rw [ht] at h
          simp only [Option.some.injEq, Prod.mk.injEq] at h
          obtain ⟨hr, hg⟩ := h
          simp only [List.cons.injEq] at hg
          rw [hr, hg.2]
      have hnone : pLit pat (c :: (t' ++ pat ++ u)) = none := by
        have := pLit_none_append pat (c :: (t' ++ pat)) u
          (by simp; omega) hp
        simpa using this
      simp only [List.cons_append, takeUntil, List.append_eq, List.append_assoc] at hnone ⊢
      rw [hnone]
      have := ih u h'
      simp only [List.append_assoc] at this
      rw [this]

/-! ### Lemmas about digit-group sequences -/

theorem groupSeqA_cons_digit (c : Char) (g : Str) (hc : c.isDigit = true)
    (hg : groupSeqA g = true) : groupSeqA (c :: g) = true := by
  cases g with
  | nil => simpa [groupSeqA] using hc
  | cons d s => simpa [groupSeqA, hc] using hg

theorem sepA_sound (s : Str) :
    (sepA s).2 ++ (sepA s).1 = s ∧ groupSeqA (sepA s).2 = true := by
  induction s using sepA.induct with
  | case1 => simp [sepA, groupSeqA]
  | case2 c hc => simp [sepA, hc, groupSeqA]
  | case3 c hc => simp [sepA, hc, groupSeqA]
  | case4 c d s hc ih =>
    refine ⟨by simp [sepA, hc, ih.1], ?_⟩
    simp only [sepA, hc, if_true]
    exact groupSeqA_cons_digit c _ hc ih.2
  | case5 c d s hc hcd ih =>
    obtain ⟨hc', hd⟩ := hcd
    subst hc'
    refine ⟨by simp [sepA, hc, hd, ih.1], ?_⟩
    simp only [sepA, hc, hd, if_false, if_true, and_true, if_pos trivial]
    simpa [groupSeqA, hd] using ih.2
  | case6 c d s hc hcd => simp [sepA, hc, hcd, groupSeqA]

theorem sepA_append : ∀ g r : Str, groupSeqA g = true → sepA r = (r, []) →
    sepA (g ++ r) = (r, g) := by
  intro g
  induction g using groupSeqA.induct with
  | case1 => intro r _ hr; simpa using hr
  | case2 c =>
    intro r hg hr
    have hc : c.isDigit = true := by simpa [groupSeqA] using hg
    cases r with
    | nil => simp [sepA, hc]
    | cons x r' => simp [sepA, hc, hr]
  | case3 c d s hc ih =>
    intro r hg hr
    simp only [groupSeqA, hc, if_true] at hg
    have := ih r hg hr
    simp only [List.cons_append] at this ⊢
    simp [sepA, hc, this]
  | case4 c d s hc ih =>
    intro r hg hr
    simp [groupSeqA, hc] at hg
    obtain ⟨⟨hc', hd⟩, hgs⟩ := hg
    subst hc'
    have := ih r hgs hr
    simp only [List.cons_append] at this ⊢
    simp [sepA, hc, hd, this]

theorem sepA_stop_dot (d : Char) (r : Str) (hd : d.isDigit = false) :
    sepA ('.' :: d :: r) = ('.' :: d :: r, []) := by
  have hdot : ('.' : Char).isDigit = false := by decide
  simp [sepA, hdot, hd]

theorem sepDigits_sound (s : Str) :
    (sepDigits s).2 ++ (sepDigits s).1 = s ∧
    ((sepDigits s).2 = [] ∨ isDigitGroupSeq (sepDigits s).2 = true) := by
  cases s with
  | nil => simp [sepDigits]
  | cons c s' =>
    by_cases hc : c.isDigit
    · have h := sepA_sound s'
      refine ⟨by simp [sepDigits, hc, h.1], Or.inr ?_⟩
      simp [sepDigits, hc, isDigitGroupSeq, h.2]
    · simp [sepDigits, hc]

theorem sepDigits_complete (v r : Str) (hv : isDigitGroupSeq v = true)
    (hr : sepA r = (r, [])) : sepDigits (v ++ r) = (r, v) := by
  cases v with
  | nil => simp [isDigitGroupSeq] at hv
  | cons c v' =>
    simp only [isDigitGroupSeq, Bool.and_eq_true] at hv
    simp [sepDigits, hv.1, sepA_append v' r hv.2 hr]

/-! ### Lemmas about the look-ahead-bounded greedy tag matcher -/

theorem userTagGo_sound : ∀ s r g : Str, userTagGo s = some (r, g) →
    s = g ++ r ∧ verSuffixLA r = true ∧
    (∀ a b, g = a ++ b → b ≠ [] → verSuffixLA (b ++ r) = false) := by
  intro s
  induction s with
  | nil =>
    intro r g h
    simp only [userTagGo] at h
    split at h
    · next hla =>
      simp only [Option.some.injEq, Prod.mk.injEq] at h
      obtain ⟨hr, hg⟩ := h
      subst hr; subst hg
      exact ⟨rfl, hla, fun a b hab hb =>
        absurd (List.append_eq_nil.mp hab.symm).2 hb⟩
    · exact absurd h (by simp)
  | cons c s' ih =>
    intro r g h
    simp only [userTagGo] at h
    split at h
    · next hla =>
      simp only [Option.some.injEq, Prod.mk.injEq] at h
      obtain ⟨hr, hg⟩ := h
      subst hr; subst hg
      exact ⟨rfl, hla, fun a b hab hb =>
        absurd (List.append_eq_nil.mp hab.symm).2 hb⟩
    · next hla =>
      cases hg' : userTagGo s' with
      | none => rw [hg'] at h; exact absurd h (by simp)
      | some p =>
        obtain ⟨r', g'⟩ := p
        rw [hg'] at h
        simp only [Option.some.injEq, Prod.mk.injEq] at h
        obtain ⟨hr, hg⟩ := h
        subst hr; subst hg
        obtain ⟨hs, hla', hmin⟩ := ih r' g' hg'
        refine ⟨by simp [hs], hla', ?_⟩
        intro a b hab hb
        cases a with
        | nil =>
          simp only [List.nil_append] at hab
          subst hab
          simp only [List.cons_append]
          rw [← hs]
          simpa using hla
        | cons a0 a' =>
          simp only [List.cons_append, List.cons.injEq] at hab
          exact hmin a' b hab.2 hb

theorem userTagGo_complete : ∀ g r : Str, verSuffixLA r = true →
    (∀ a b, g = a ++ b → b ≠ [] → verSuffixLA (b ++ r) = false) →
    userTagGo (g ++ r) = some (r, g) := by
  intro g
  induction g with
  | nil =>
    intro r hla _
    cases r with
    | nil => simp [userTagGo, hla]
    | cons c s => simp [userTagGo, hla]
  | cons c g' ih =>
    intro r hla hmin
    have h0 : verSuffixLA (c :: (g' ++ r)) = false := by
      have := hmin [] (c :: g') rfl (by simp)
      simpa using this
    have hrec := ih r hla (fun a b hab hb => hmin (c :: a) b (by simp [hab]) hb)
    have hn : ¬(verSuffixLA (c :: (g' ++ r)) = true) := by simp [h0]
    simp only [List.cons_append, userTagGo, List.append_eq]
    rw [if_neg hn, hrec]

theorem noEarlyLA_sound : ∀ g r : Str, noEarlyLA g r = true →
    ∀ a b, g = a ++ b → b ≠ [] → verSuffixLA (b ++ r) = false := by
  intro g
  induction g with
  | nil =>
    intro r _ a b hab hb
    exact absurd (List.append_eq_nil.mp hab.symm).2 hb
  | cons c g' ih =>
    intro r h a b hab hb
    simp only [noEarlyLA, Bool.and_eq_true, Bool.not_eq_true'] at h
    cases a with
    | nil =>
      simp only [List.nil_append] at hab
      subst hab
      simpa using h.1
    | cons a0 a' =>
      simp only [List.cons_append, List.cons.injEq] at hab
      exact ih r h.2 a' b hab.2 hb

/-! ### String-literal normal forms -/

theorem toList_dus : ("__".toList : Str) = ['_', '_'] := rfl

theorem toList_user : ("user".toList : Str) = ['u', 's', 'e', 'r'] := rfl

theorem toList_dat : (".dat".toList : Str) = ['.', 'd', 'a', 't'] := rfl

theorem toList_bak : (".bak".toList : Str) = ['.', 'b', 'a', 'k'] := rfl

theorem toList_us : ("_".toList : Str) = ['_'] := rfl

theorem toList_datbak :
    (".dat.bak".toList : Str) = ['.', 'd', 'a', 't', '.', 'b', 'a', 'k'] := rfl

/-! ### Soundness of the individual field parsers -/

theorem optP_eq {α : Type} (p : Str → Option (Str × α)) (s s1 : Str) (o : Option α)
    (h : optP p s = (s1, o)) :
    (o = none ∧ p s = none ∧ s1 = s) ∨ (∃ v, o = some v ∧ p s = some (s1, v)) := by
  unfold optP at h
  cases hp : p s with
  | none =>
    rw [hp] at h
    simp only [Prod.mk.injEq] at h
    exact Or.inl ⟨h.2.symm, rfl, h.1.symm⟩
  | some q =>
    obtain ⟨r, v⟩ := q
    rw [hp] at h
    simp only [Prod.mk.injEq] at h
    exact Or.inr ⟨v, h.2.symm, by rw [h.1]⟩

theorem parse_tag_internal_sound (s r t : Str)
    (h : parse_tag_internal s = some (r, t)) :
    s = "__".toList ++ t ++ "__".toList ++ r ∧
    (∀ a b, t = a ++ b → b ≠ [] → pLit "__".toList (b ++ "__".toList ++ r) = none) := by
  unfold parse_tag_internal at h
  simp only [toList_dus] at h ⊢
  cases h1 : pLit ['_', '_'] s with
  | none => simp [h1] at h
  | some s1 =>
    simp only [h1] at h
    cases h2 : takeUntil ['_', '_'] s1 with
    | none => simp [h2] at h
    | some p =>
      obtain ⟨s2, t'⟩ := p
      simp only [h2] at h
      cases h3 : pLit ['_', '_'] s2 with
      | none => simp [h3] at h
      | some s3 =>
        simp only [h3, Option.some.injEq, Prod.mk.injEq] at h
        obtain ⟨hr, ht⟩ := h
        subst hr; subst ht
        obtain ⟨hs1, _, hmin⟩ := takeUntil_sound _ _ _ _ h2
        have hs2 := pLit_sound _ _ _ h3
        have hs := pLit_sound _ _ _ h1
        constructor
        · rw [hs, hs1, hs2]
          simp [List.append_assoc]
        · intro a b hab hb
          have := hmin a b hab hb
          rwa [hs2, ← List.append_assoc] at this

theorem parse_suffix_bak_sound (s r b : Str) (h : parse_suffix_bak s = some (r, b)) :
    r = [] ∧ s = ".bak".toList ++ b ∧ b.all Char.isDigit = true := by
  unfold parse_suffix_bak at h
  simp only [toList_bak] at h ⊢
  cases h1 : pLit ['.', 'b', 'a', 'k'] s with
  | none => simp [h1] at h
  | some s1 =>
    simp only [h1] at h
    cases h2 : s1.dropWhile Char.isDigit with
    | cons x xs => simp [h2] at h
    | nil =>
      simp only [h2, Option.some.injEq, Prod.mk.injEq] at h
      obtain ⟨hr, hb⟩ := h
      subst hr
      have hall : ∀ x ∈ s1, Char.isDigit x := List.dropWhile_eq_nil_iff.mp h2
      have htake : s1.takeWhile Char.isDigit = s1 := by
        have := List.takeWhile_append_dropWhile (p := Char.isDigit) (l := s1)
        rwa [h2, List.append_nil] at this
      refine ⟨rfl, ?_, ?_⟩
      · rw [pLit_sound _ _ _ h1, ← hb, htake]
      · rw [← hb, htake]
        exact List.all_eq_true.mpr fun x hx => hall x hx

theorem parse_suffix_sound (s : Str) (r : Str) (bak : Option Str)
    (h : parse_suffix s = some (r, bak)) :
    r = [] ∧
    (bak = none → s = ".dat".toList) ∧
    (∀ b, bak = some b →
      s = ".dat".toList ++ ".bak".toList ++ b ∧ b.all Char.isDigit = true) := by
  unfold parse_suffix at h
  simp only [toList_dat, toList_bak] at h ⊢
  cases h1 : pLit ['.', 'd', 'a', 't'] s with
  | none => simp [h1] at h
  | some s1 =>
    simp only [h1] at h
    have hs := pLit_sound _ _ _ h1
    cases h2 : parse_suffix_bak s1 with
    | some p =>
      obtain ⟨s2, b⟩ := p
      simp only [h2] at h
      obtain ⟨hs2, hs1, hdig⟩ := parse_suffix_bak_sound _ _ _ h2
      subst hs2
      simp only [Option.some.injEq, Prod.mk.injEq] at h
      obtain ⟨hr, hbak⟩ := h
      subst hr
      subst hbak
      refine ⟨rfl, by simp, ?_⟩
      intro b' hb'
      simp only [Option.some.injEq] at hb'
      subst hb'
      simp only [toList_bak] at hs1
      exact ⟨by rw [hs, hs1, List.append_assoc], hdig⟩
    | none =>
      simp only [h2] at h
      cases hs1 : s1 with
      | cons x xs => simp [hs1] at h
      | nil =>
        simp only [hs1, Option.some.injEq, Prod.mk.injEq] at h
        obtain ⟨hr, hbak⟩ := h
        subst hr
        subst hbak
        exact ⟨rfl, fun _ => by rw [hs, hs1]; simp, by simp⟩

theorem parse_version_sound (s r v : Str) (h : parse_version s = some (r, v)) :
    s = '_' :: (v ++ r) ∧ (v = [] ∨ isDigitGroupSeq v = true) := by
  unfold parse_version at h
  simp only [toList_us] at h
  cases h1 : pLit ['_'] s with
  | none => simp [h1] at h
  | some s1 =>
    simp only [h1, Option.some.injEq, Prod.mk.injEq] at h
    obtain ⟨hr, hv⟩ := h
    have hsd := sepDigits_sound s1
    subst hr
    subst hv
    constructor
    · have hs := pLit_sound _ _ _ h1
      rw [hs, hsd.1]
      rfl
    · exact hsd.2

theorem parse_user_tag_sound (s r g : Str) (h : parse_user_tag s = some (r, g)) :
    s = "user".toList ++ g ++ r ∧ verSuffixLA r = true ∧
    (∀ a b, g = a ++ b → b ≠ [] → verSuffixLA (b ++ r) = false) := by
  unfold parse_user_tag at h
  simp only [toList_user] at h
  cases h1 : pLit ['u', 's', 'e', 'r'] s with
  | none => simp [h1] at h
  | some s1 =>
    simp only [h1] at h
    obtain ⟨hs1, hla, hmin⟩ := userTagGo_sound _ _ _ h
    refine ⟨?_, hla, hmin⟩
    simp only [toList_user]
    rw [pLit_sound _ _ _ h1, hs1, List.append_assoc]

/-! ### Decomposition of a successful `parse` -/

theorem parse_cases (s rest : Str) (r : SaveNameInfo) (h : parse s = some (rest, r)) :
    ∃ s1 s2 s3,
      optP parse_tag_internal s = (s1, r.internal_tag) ∧
      parse_user_tag s1 = some (s2, r.tag) ∧
      optP parse_version s2 = (s3, r.version) ∧
      parse_suffix s3 = some (rest, r.backup_id) := by
  unfold parse at h
  rcases hi : optP parse_tag_internal s with ⟨s1, itag⟩
  simp only [hi] at h
  cases h2 : parse_user_tag s1 with
  | none => simp [h2] at h
  | some p =>
    obtain ⟨s2, utag⟩ := p
    simp only [h2] at h
    rcases hv : optP parse_version s2 with ⟨s3, ver⟩
    simp only [hv] at h
    cases h4 : parse_suffix s3 with
    | none => simp [h4] at h
    | some q =>
      obtain ⟨s4, bak⟩ := q
      simp only [h4, Option.some.injEq, Prod.mk.injEq] at h
      obtain ⟨hrest, hrec⟩ := h
      subst hrest
      subst hrec
      exact ⟨s1, s2, s3, rfl, h2, hv, h4⟩

/-- The formatted string is the fixed-order concatenation of the five
segments. -/
theorem format_eq (r : SaveNameInfo) :
    SaveNameInfo.format r =
      internal_str r ++ "user".toList ++ r.tag ++ ver_str r ++ ext_str r := rfl

/-- Master soundness: a successful `parse` consumes the whole input and
its record formats back to exactly the input string. -/
theorem parse_sound (s rest : Str) (r : SaveNameInfo) (h : parse s = some (rest, r)) :
    rest = [] ∧ SaveNameInfo.format r = s := by
  obtain ⟨s1, s2, s3, hi, hu, hv, hsuf⟩ := parse_cases s rest r h
  obtain ⟨hrest, hsufn, hsufs⟩ := parse_suffix_sound _ _ _ hsuf
  subst hrest
  obtain ⟨hs1, _, _⟩ := parse_user_tag_sound _ _ _ hu
  have hint : s = internal_str r ++ s1 := by
    rcases optP_eq _ _ _ _ hi with ⟨hnone, _, hs1s⟩ | ⟨t, hsome, hpi⟩
    · rw [internal_str, hnone, hs1s]
      try simp
    · obtain ⟨hdec, _⟩ := parse_tag_internal_sound _ _ _ hpi
      rw [internal_str, hsome, hdec]
      try simp [List.append_assoc]
  have hver : s2 = ver_str r ++ s3 := by
    rcases optP_eq _ _ _ _ hv with ⟨hnone, _, hs3s⟩ | ⟨v, hsome, hpv⟩
    · rw [ver_str, hnone, hs3s]
      try simp
    · obtain ⟨hdec, _⟩ := parse_version_sound _ _ _ hpv
      rw [ver_str, hsome, hdec]
      try rfl
  have hext : s3 = ext_str r := by
    cases hbak : r.backup_id with
    | none => rw [ext_str, hbak, hsufn hbak]
    | some b =>
      obtain ⟨hdec, _⟩ := hsufs b hbak
      rw [ext_str, hbak, hdec, toList_datbak, toList_dat, toList_bak]
      try rfl
  refine ⟨rfl, ?_⟩
  rw [format_eq, hint, hs1, hver, hext]
  simp [List.append_assoc]


theorem parse_suffix_bak_complete (b : Str) (hdig : b.all Char.isDigit = true) :
    parse_suffix_bak (".bak".toList ++ b) = some ([], b) := by
  have hdw : b.dropWhile Char.isDigit = [] :=
    List.dropWhile_eq_nil_iff.mpr fun x hx => List.all_eq_true.mp hdig x hx
  have htw : b.takeWhile Char.isDigit = b := by
    have := List.takeWhile_append_dropWhile (p := Char.isDigit) (l := b)
    rwa [hdw, List.append_nil] at this
  simp only [parse_suffix_bak, pLit_complete, hdw, htw]

theorem parse_suffix_complete_none : parse_suffix ".dat".toList = some ([], none) := by
  decide

theorem parse_suffix_complete_some (b : Str) (hdig : b.all Char.isDigit = true) :
    parse_suffix (".dat.bak".toList ++ b) = some ([], some b) := by
  have h1 : (".dat.bak".toList ++ b : Str) = ".dat".toList ++ (".bak".toList ++ b) := by
    rw [toList_datbak, toList_dat, toList_bak]
    simp
  rw [h1]
  simp only [parse_suffix, pLit_complete, parse_suffix_bak_complete b hdig]

theorem parse_version_complete (v es : Str) (hv : isDigitGroupSeq v = true)
    (hstop : sepA es = (es, [])) :
    parse_version ('_' :: (v ++ es)) = some (es, v) := by
  have h1 : ('_' :: (v ++ es) : Str) = "_".toList ++ (v ++ es) := by
    rw [toList_us, List.singleton_append]
  rw [h1]
  simp only [parse_version, pLit_complete, sepDigits_complete v es hv hstop]

theorem parse_version_none_dot (es : Str) : parse_version ('.' :: es) = none := by
  have hne : ('_' : Char) ≠ '.' := by decide
  simp [parse_version, pLit, toList_us, hne]


theorem parse_tag_internal_none_user (x : Str) :
    parse_tag_internal ('u' :: x) = none := by
  have hne : ('_' : Char) ≠ 'u' := by decide
  simp [parse_tag_internal, pLit, toList_dus, hne]

theorem parse_tag_internal_complete (t u : Str)
    (ht : takeUntil "__".toList (t ++ "__".toList) = some ("__".toList, t)) :
    parse_tag_internal ("__".toList ++ (t ++ "__".toList ++ u)) = some (u, t) := by
  have hext := takeUntil_extend "__".toList t u ht
  simp only [parse_tag_internal, pLit_complete, hext]

theorem parse_complete (r : SaveNameInfo)
    (hver : ∀ v, r.version = some v → isDigitGroupSeq v = true)
    (hbak : ∀ b, r.backup_id = some b → b.all Char.isDigit = true)
    (hint : ∀ t, r.internal_tag = some t →
      takeUntil "__".toList (t ++ "__".toList) = some ("__".toList, t))
    (hearly : noEarlyLA r.tag (ver_str r ++ ext_str r) = true) :
    parse (SaveNameInfo.format r) = some ([], r) := by
  obtain ⟨tg, ver, bak, itag⟩ := r
  obtain ⟨es', hes⟩ : ∃ es',
      ext_str ⟨tg, ver, bak, itag⟩ = '.' :: 'd' :: es' := by
    cases bak with
    | none => exact ⟨['a', 't'], rfl⟩
    | some b => exact ⟨['a', 't', '.', 'b', 'a', 'k'] ++ b, by rw [ext_str]; rfl⟩
  have hsuffix : parse_suffix (ext_str ⟨tg, ver, bak, itag⟩) = some ([], bak) := by
    cases bak with
    | none => exact parse_suffix_complete_none
    | some b => exact parse_suffix_complete_some b (hbak b rfl)
  have hstop : sepA (ext_str ⟨tg, ver, bak, itag⟩) =
      (ext_str ⟨tg, ver, bak, itag⟩, []) := by
    rw [hes]
    exact sepA_stop_dot 'd' es' (by decide)
  have hversion : optP parse_version (ver_str ⟨tg, ver, bak, itag⟩ ++
      ext_str ⟨tg, ver, bak, itag⟩) = (ext_str ⟨tg, ver, bak, itag⟩, ver) := by
    cases ver with
    | none =>
      have hnp : parse_version (ext_str ⟨tg, none, bak, itag⟩) = none := by
        rw [hes]
        exact parse_version_none_dot _
      show optP parse_version (ext_str ⟨tg, none, bak, itag⟩) = _
      simp only [optP, hnp]
    | some v =>
      have hp := parse_version_complete v (ext_str ⟨tg, some v, bak, itag⟩)
        (hver v rfl) hstop
      show optP parse_version ('_' :: (v ++ ext_str ⟨tg, some v, bak, itag⟩)) = _
      simp only [optP, hp]
  have hla : verSuffixLA (ver_str ⟨tg, ver, bak, itag⟩ ++
      ext_str ⟨tg, ver, bak, itag⟩) = true := by
    rcases optP_eq _ _ _ _ hversion with ⟨hvn, hpn, hEs⟩ | ⟨v, hvs, hpv⟩
    · simp only [verSuffixLA, hpn]
      rw [← hEs, hsuffix]
      rfl
    · simp only [verSuffixLA, hpv, hsuffix]
      rfl
  have htag : userTagGo (tg ++ (ver_str ⟨tg, ver, bak, itag⟩ ++
      ext_str ⟨tg, ver, bak, itag⟩)) = some (ver_str ⟨tg, ver, bak, itag⟩ ++
      ext_str ⟨tg, ver, bak, itag⟩, tg) :=
    userTagGo_complete tg _ hla (noEarlyLA_sound tg _ hearly)
  have huser : parse_user_tag ("user".toList ++ (tg ++
      (ver_str ⟨tg, ver, bak, itag⟩ ++ ext_str ⟨tg, ver, bak, itag⟩))) =
      some (ver_str ⟨tg, ver, bak, itag⟩ ++ ext_str ⟨tg, ver, bak, itag⟩, tg) := by
    simp only [parse_user_tag, pLit_complete, htag]
  have hinternal : optP parse_tag_internal (SaveNameInfo.format ⟨tg, ver, bak, itag⟩) =
      ("user".toList ++ (tg ++ (ver_str ⟨tg, ver, bak, itag⟩ ++
        ext_str ⟨tg, ver, bak, itag⟩)), itag) := by
    cases itag with
    | none =>
      have hfm2 : SaveNameInfo.format ⟨tg, ver, bak, none⟩ =
          "user".toList ++ (tg ++ (ver_str ⟨tg, ver, bak, none⟩ ++
            ext_str ⟨tg, ver, bak, none⟩)) := by
        rw [format_eq]
        simp [internal_str, List.append_assoc]
      have hfn : parse_tag_internal (SaveNameInfo.format ⟨tg, ver, bak, none⟩) = none := by
        have h2 : SaveNameInfo.format ⟨tg, ver, bak, none⟩ =
            'u' :: ('s' :: 'e' :: 'r' :: (tg ++ (ver_str ⟨tg, ver, bak, none⟩ ++
              ext_str ⟨tg, ver, bak, none⟩))) := by
          rw [hfm2, toList_user]
          rfl
        rw [h2]
        exact parse_tag_internal_none_user _
      rw [hfm2] at hfn
      rw [hfm2]
      simp only [optP, hfn]
    | some t =>
      have ht := hint t rfl
      have hfm : SaveNameInfo.format ⟨tg, ver, bak, some t⟩ =
          "__".toList ++ (t ++ "__".toList ++ ("user".toList ++ (tg ++
            (ver_str ⟨tg, ver, bak, some t⟩ ++ ext_str ⟨tg, ver, bak, some t⟩)))) := by
        rw [format_eq]
        simp [internal_str, List.append_assoc]
      have hpt := parse_tag_internal_complete t ("user".toList ++ (tg ++
        (ver_str ⟨tg, ver, bak, some t⟩ ++ ext_str ⟨tg, ver, bak, some t⟩))) ht
      rw [hfm]
      simp only [optP, hpt]
  simp only [parse, hinternal, huser, hversion, hsuffix]


/-! ### Claim theorems -/

/-- Claim C1: for every name string `s` accepted by `parse` (with record
`r` and remainder `rest`), formatting the record reproduces the input
exactly: `format (parse s) = s`. -/
theorem claim_c1_parse_then_format (s rest : Str) (r : SaveNameInfo)
    (h : parse s = some (rest, r)) : SaveNameInfo.format r = s :=
  (parse_sound s rest r h).2

/-- Witness for C1 at the input `__pin__user4_1.0.28650.dat.bak13`. -/
theorem claim_c1_witness :
    SaveNameInfo.format (SaveNameInfo.mk "4".toList (some "1.0.28650".toList)
      (some "13".toList) (some "pin".toList)) =
    "__pin__user4_1.0.28650.dat.bak13".toList :=
  claim_c1_parse_then_format "__pin__user4_1.0.28650.dat.bak13".toList []
    (SaveNameInfo.mk "4".toList (some "1.0.28650".toList) (some "13".toList)
      (some "pin".toList)) (by decide)

/-- Counterexample for C2 as stated: the record with tag `1_2` (which
contains no substring satisfying the version/suffix look-ahead, and whose
other fields trivially satisfy the §3 invariants) does not survive the
`format` / `parse` round trip: it re-parses as tag `1`, version `2`. -/
theorem claim_c2_counterexample :
    ("1_2".toList : Str) ≠ [] ∧
    noLAsubstring "1_2".toList = true ∧
    parse (SaveNameInfo.format (SaveNameInfo.mk "1_2".toList none none none)) =
      some ([], SaveNameInfo.mk "1".toList (some "2".toList) none none) ∧
    SaveNameInfo.mk "1".toList (some "2".toList) none none ≠
      SaveNameInfo.mk "1_2".toList none none none := by
  exact ⟨by decide, by decide, by decide, by decide⟩

/-- Claim C2 (amended): `parse (format r) = r` for every record whose tag
is non-empty, whose version (when present) is a dot-separated sequence of
non-empty digit groups, whose backup id (when present) is digits-only,
whose internal tag (when present) contains no `__` occurrence and does
not end in `_` (equivalently, the first `__` in `t ++ "__"` is its own
closing marker), and where the version/suffix look-ahead fails at every
position strictly inside the tag when followed by the formatted
version+suffix remainder. -/
theorem claim_c2_format_then_parse (r : SaveNameInfo)
    (_h1 : r.tag ≠ [])
    (h2 : ∀ v, r.version = some v → isDigitGroupSeq v = true)
    (h3 : ∀ b, r.backup_id = some b → b.all Char.isDigit = true)
    (h4 : ∀ t, r.internal_tag = some t →
      takeUntil "__".toList (t ++ "__".toList) = some ("__".toList, t))
    (h5 : noEarlyLA r.tag (ver_str r ++ ext_str r) = true) :
    parse (SaveNameInfo.format r) = some ([], r) :=
  parse_complete r h2 h3 h4 h5

/-- Witness for C2 (amended) at a fully populated record. -/
theorem claim_c2_witness :
    parse (SaveNameInfo.format (SaveNameInfo.mk "4".toList (some "1.0.28650".toList)
      (some "13".toList) (some "pin".toList))) =
    some ([], SaveNameInfo.mk "4".toList (some "1.0.28650".toList)
      (some "13".toList) (some "pin".toList)) :=
  claim_c2_format_then_parse
    (SaveNameInfo.mk "4".toList (some "1.0.28650".toList) (some "13".toList)
      (some "pin".toList))
    (by decide)
    (fun v hv => by injection hv with h; subst h; decide)
    (fun b hb => by injection hb with h; subst h; decide)
    (fun t ht => by injection ht with h; subst h; decide)
    (by decide)

/-- Claim C3: the user-tag matcher stops at the first (leftmost) position
where the version/suffix look-ahead succeeds — the look-ahead holds at
the stopping position and fails at every strictly earlier position — and
in particular `parse "user1.dat.dat"` succeeds with tag `1.dat`. -/
theorem claim_c3_first_stop (s rest g a b : Str)
    (h : parse_user_tag s = some (rest, g)) :
    verSuffixLA rest = true ∧
    (g = a ++ b → b ≠ [] → verSuffixLA (b ++ rest) = false) ∧
    parse "user1.dat.dat".toList =
      some ([], SaveNameInfo.mk "1.dat".toList none none none) := by
  obtain ⟨-, hla, hmin⟩ := parse_user_tag_sound s rest g h
  exact ⟨hla, fun hab hb => hmin a b hab hb, by decide⟩

/-- Witness for C3 at the input `user1.dat`. -/
theorem claim_c3_witness :
    verSuffixLA ".dat".toList = true ∧
    (("1".toList : Str) = [] ++ "1".toList → "1".toList ≠ [] →
      verSuffixLA ("1".toList ++ ".dat".toList) = false) ∧
    parse "user1.dat.dat".toList =
      some ([], SaveNameInfo.mk "1.dat".toList none none none) :=
  claim_c3_first_stop "user1.dat".toList ".dat".toList "1".toList [] "1".toList
    (by decide)

/-- Claim C4: `format` is the fixed-order concatenation
`[__internal__] ++ user ++ tag ++ [_version] ++ .dat ++ [.bak backup]`,
each bracketed segment emitted exactly when the field is present (a
present-but-empty backup id still emits a bare `.bak`), and the output
always contains the literal substring `user`. -/
theorem claim_c4_format_shape (r : SaveNameInfo) :
    SaveNameInfo.format r =
      (match r.internal_tag with
        | some i => "__".toList ++ i ++ "__".toList
        | none => ([] : Str)) ++
      "user".toList ++ r.tag ++
      (match r.version with
        | some v => "_".toList ++ v
        | none => ([] : Str)) ++
      ".dat".toList ++
      (match r.backup_id with
        | some b => ".bak".toList ++ b
        | none => ([] : Str)) ∧
    (∃ x y, SaveNameInfo.format r = x ++ "user".toList ++ y) := by
  obtain ⟨tg, ver, bak, itag⟩ := r
  constructor
  · cases ver <;> cases bak <;> cases itag <;>
      simp [SaveNameInfo.format, toList_datbak, toList_dat, toList_bak,
        toList_us, List.append_assoc]
  · refine ⟨internal_str (SaveNameInfo.mk tg ver bak itag),
      tg ++ ver_str (SaveNameInfo.mk tg ver bak itag) ++
        ext_str (SaveNameInfo.mk tg ver bak itag), ?_⟩
    rw [format_eq]
    simp [List.append_assoc]

/-- Claim C5: `parse "user2.dat.bak"` yields backup id `some ""` while
`parse "user2.dat"` yields backup id `none`, and the two records are
distinct. -/
theorem claim_c5_backup_distinction :
    parse "user2.dat.bak".toList =
      some ([], SaveNameInfo.mk "2".toList none (some []) none) ∧
    parse "user2.dat".toList =
      some ([], SaveNameInfo.mk "2".toList none none none) ∧
    SaveNameInfo.mk "2".toList none (some []) none ≠
      SaveNameInfo.mk "2".toList none none none := by
  exact ⟨by decide, by decide, by decide⟩

/-- Counterexample for C6 as stated: `parse "user.dat"` succeeds with an
empty tag, so the tag of an accepted name is not always non-empty. -/
theorem claim_c6_counterexample :
    parse "user.dat".toList = some ([], SaveNameInfo.mk [] none none none) := by
  decide

/-- Claim C6 (amended): for every accepted name the tag is the shortest
(possibly empty) prefix after the literal `user` at which the
version/suffix look-ahead succeeds: the look-ahead holds right after the
tag and fails at every position strictly inside it. -/
theorem claim_c6_tag_shortest (s rest : Str) (r : SaveNameInfo) (a b : Str)
    (h : parse s = some (rest, r)) :
    ∃ pre mid, s = pre ++ "user".toList ++ r.tag ++ mid ∧
      verSuffixLA mid = true ∧
      (r.tag = a ++ b → b ≠ [] → verSuffixLA (b ++ mid) = false) := by
  obtain ⟨s1, s2, s3, hi, hu, hv, hsuf⟩ := parse_cases s rest r h
  obtain ⟨hs1, hla, hmin⟩ := parse_user_tag_sound _ _ _ hu
  rcases optP_eq _ _ _ _ hi with ⟨hnone, _, hs1s⟩ | ⟨t, hsome, hpi⟩
  · refine ⟨[], s2, ?_, hla, fun hab hb => hmin a b hab hb⟩
    rw [← hs1s, hs1]
    simp [List.append_assoc]
  · obtain ⟨hdec, _⟩ := parse_tag_internal_sound _ _ _ hpi
    refine ⟨"__".toList ++ t ++ "__".toList, s2, ?_, hla,
      fun hab hb => hmin a b hab hb⟩
    rw [hdec, hs1]
    simp [List.append_assoc]

/-- Witness for C6 (amended) at the empty-tag input `user.dat`. -/
theorem claim_c6_witness :
    ∃ pre mid, "user.dat".toList = pre ++ "user".toList ++
      (SaveNameInfo.mk [] none none none).tag ++ mid ∧
      verSuffixLA mid = true ∧
      ((SaveNameInfo.mk [] none none none).tag = [] ++ "x".toList →
        "x".toList ≠ [] → verSuffixLA ("x".toList ++ mid) = false) :=
  claim_c6_tag_shortest "user.dat".toList [] (SaveNameInfo.mk [] none none none)
    [] "x".toList (by decide)

/-- Counterexample for C7 as stated: `parse "user1_.dat"` succeeds with
version `some ""`, which is not a sequence of one or more non-empty digit
groups. -/
theorem claim_c7_counterexample :
    parse "user1_.dat".toList =
      some ([], SaveNameInfo.mk "1".toList (some []) none none) ∧
    isDigitGroupSeq [] = false := by
  exact ⟨by decide, by decide⟩

/-- Claim C7 (amended): for every accepted name whose record has
`version = some v`, `v` is either empty or a dot-separated sequence of
one or more non-empty digit groups. -/
theorem claim_c7_version_shape (s rest : Str) (r : SaveNameInfo) (v : Str)
    (h : parse s = some (rest, r)) (hv : r.version = some v) :
    v = [] ∨ isDigitGroupSeq v = true := by
  obtain ⟨s1, s2, s3, hi, hu, hvv, hsuf⟩ := parse_cases s rest r h
  rcases optP_eq _ _ _ _ hvv with ⟨hnone, _, _⟩ | ⟨v', hsome, hpv⟩
  · rw [hnone] at hv
    exact absurd hv (by simp)
  · rw [hsome] at hv
    injection hv with hv'
    subst hv'
    exact (parse_version_sound _ _ _ hpv).2

/-- Witness for C7 (amended) at the input `user2_1.0.28891.dat`. -/
theorem claim_c7_witness :
    ("1.0.28891".toList : Str) = [] ∨ isDigitGroupSeq "1.0.28891".toList = true :=
  claim_c7_version_shape "user2_1.0.28891.dat".toList []
    (SaveNameInfo.mk "2".toList (some "1.0.28891".toList) none none)
    "1.0.28891".toList (by decide) rfl

/-- Claim C8: `parse` consumes the entire input — a successful parse
leaves an empty remainder — and `parse "usersomething"` (no `.dat`
suffix) fails. -/
theorem claim_c8_full_consumption (s rest : Str) (r : SaveNameInfo)
    (h : parse s = some (rest, r)) :
    rest = [] ∧ parse "usersomething".toList = none :=
  ⟨(parse_sound s rest r h).1, by decide⟩

/-- Witness for C8 at the input `user1.dat`. -/
theorem claim_c8_witness : ([] : Str) = [] ∧ parse "usersomething".toList = none :=
  claim_c8_full_consumption "user1.dat".toList []
    (SaveNameInfo.mk "1".toList none none none) (by decide)

/-- Counterexample for C9 as stated: `parse "____user1.dat"` succeeds
with `internal_tag = some ""`, so the captured internal tag need not be
non-empty. -/
theorem claim_c9_counterexample :
    parse "____user1.dat".toList =
      some ([], SaveNameInfo.mk "1".toList none none (some [])) := by
  decide

/-- Claim C9 (amended): for every accepted name, a present internal tag
is the shortest (possibly empty) run before the first closing `__`
marker — it contains no occurrence of `__` — and if the input does not
begin with the opening `__` marker the internal tag is `none` rather
than a failure. -/
theorem claim_c9_internal_tag (s rest : Str) (r : SaveNameInfo) (t a c : Str)
    (h : parse s = some (rest, r)) :
    (r.internal_tag = some t → t ≠ a ++ "__".toList ++ c) ∧
    (pLit "__".toList s = none → r.internal_tag = none) := by
  obtain ⟨s1, s2, s3, hi, hu, hv, hsuf⟩ := parse_cases s rest r h
  rcases optP_eq _ _ _ _ hi with ⟨hnone, hpn, _⟩ | ⟨t', hsome, hpi⟩
  · constructor
    · intro ht
      rw [hnone] at ht
      exact absurd ht (by simp)
    · intro _
      exact hnone
  · obtain ⟨hdec, hmin⟩ := parse_tag_internal_sound _ _ _ hpi
    constructor
    · intro ht hteq
      rw [hsome] at ht
      injection ht with ht'
      subst ht'
      have hsplit : t' = a ++ ("__".toList ++ c) := by
        rw [hteq, List.append_assoc]
      have hnone2 := hmin a ("__".toList ++ c) hsplit (by simp)
      rw [List.append_assoc, List.append_assoc] at hnone2
      have hsome2 := pLit_complete "__".toList (c ++ ("__".toList ++ s1))
      rw [hnone2] at hsome2
      exact absurd hsome2 (by simp)
    · intro hpl
      rw [hdec] at hpl
      simp only [List.append_assoc] at hpl
      rw [pLit_complete] at hpl
      exact absurd hpl (by simp)

/-- Witness for C9 (amended) at the input `user1.dat` (no internal tag). -/
theorem claim_c9_witness :
    ((SaveNameInfo.mk "1".toList none none none).internal_tag = some "x".toList →
      "x".toList ≠ [] ++ "__".toList ++ []) ∧
    (pLit "__".toList "user1.dat".toList = none →
      (SaveNameInfo.mk "1".toList none none none).internal_tag = none) :=
  claim_c9_internal_tag "user1.dat".toList []
    (SaveNameInfo.mk "1".toList none none none) "x".toList [] [] (by decide)

/-- Counterexample for C10 as stated: `SaveNameInfo::new` accepts a
non-digit backup id without any validation or rejection, and `format`
happily formats the ill-formed record. -/
theorem claim_c10_counterexample :
    SaveNameInfo.new "1".toList none (some "xy".toList) none =
      SaveNameInfo.mk "1".toList none (some "xy".toList) none ∧
    ("xy".toList.all Char.isDigit) = false ∧
    SaveNameInfo.format (SaveNameInfo.new "1".toList none (some "xy".toList) none) =
      "user1.dat.bakxy".toList := by
  exact ⟨by decide, by decide, by decide⟩

/-- Claim C10 (amended): record construction performs no validation —
`new` stores its field values verbatim, ill-formed or not, and `format`
is a total function on whatever the record holds. -/
theorem claim_c10_new_stores_verbatim (tag : Str)
    (version backup internal_tag : Option Str) :
    SaveNameInfo.new tag version backup internal_tag =
      SaveNameInfo.mk tag version backup internal_tag ∧
    SaveNameInfo.format (SaveNameInfo.new tag version backup internal_tag) =
      SaveNameInfo.format (SaveNameInfo.mk tag version backup internal_tag) :=
  ⟨rfl, rfl⟩

end HKSS
